import Mathlib

/-!
Verification of the INTcoin mining-pool server (`src/pool`) against its
specification.  The C++ functions relevant to the claims are embedded as
executable Lean definitions; machine integers are modelled as `Nat`/`Int`
(the source never relies on wraparound in the modelled paths), wall-clock
time points as integers counting seconds, and the few `double` quantities
(pool fee percentage, VarDiff target/variance) as exact rationals, which
agrees with IEEE doubles on every magnitude exercised here.
-/

namespace IntcoinPool

/-! ## Hashes and share difficulty (`pool.cpp`, `CalculateShareDifficulty`) -/

/-- Leading-zero-bit count of one byte value, as produced by the inner loop of
`CalculateShareDifficulty` (`src/pool/pool.cpp:466-472`): bits are examined
from bit 7 downwards, counting zeros until the first set bit. -/
def byteLeadingZeros (b : Nat) : Nat :=
  if 128 ≤ b then 0
  else if 64 ≤ b then 1
  else if 32 ≤ b then 2
  else if 16 ≤ b then 3
  else if 8 ≤ b then 4
  else if 4 ≤ b then 5
  else if 2 ≤ b then 6
  else if 1 ≤ b then 7
  else 8

/-- Leading-zero-bit count of a hash, given as its bytes most significant
first (the C++ loop at `pool.cpp:459-475` reads `hash.data()[31 - i]`,
i.e. byte 31 first): each zero byte contributes 8, and the first nonzero
byte contributes its own leading zeros. -/
def countLeadingZeros : List Nat → Nat
  | [] => 0
  | b :: rest => if b = 0 then 8 + countLeadingZeros rest else byteLeadingZeros b

/-- Integer value of a hash given most-significant byte first. -/
def hashValue : List Nat → Nat
  | [] => 0
  | b :: rest => b * 256 ^ rest.length + hashValue rest

/-- A well-formed 256-bit hash: 32 bytes, each below 256. -/
def isHashBytes (h : List Nat) : Prop :=
  h.length = 32 ∧ ∀ b ∈ h, b < 256

instance (h : List Nat) : Decidable (isHashBytes h) := by
  unfold isHashBytes; infer_instance

/-- The pool difficulty-1 target
`0x00000000FFFF0000000000000000000000000000000000000000000000000000`
(`pool.cpp:453-454`), i.e. `0xFFFF` followed by 26 zero bytes. -/
def poolDiff1Target : Nat := 65535 * 2 ^ 208

/-- Largest value of a `uint64_t`. -/
def UINT64_MAX : Nat := 2 ^ 64 - 1

/-- `CalculateShareDifficulty` (`src/pool/pool.cpp:449-506`): count leading
zero bits `z`; if `z < 32` return 1; if `z - 32 ≥ 48` return `UINT64_MAX`;
otherwise return `max (65536 <<< (z - 32)) 1`.  The shift never overflows
`uint64_t` because the exponent stays below 48. -/
def calculateShareDifficulty (h : List Nat) : Nat :=
  let z := countLeadingZeros h
  if z < 32 then 1
  else if 48 ≤ z - 32 then UINT64_MAX
  else max (65536 * 2 ^ (z - 32)) 1

/-- The 32 bytes (most significant first) of the pool difficulty-1 target. -/
def diff1Bytes : List Nat := [0, 0, 0, 0, 255, 255] ++ List.replicate 26 0

theorem byteLeadingZeros_le (b : Nat) : byteLeadingZeros b ≤ 8 := by
  unfold byteLeadingZeros
  repeat' split
  all_goals omega

set_option maxRecDepth 2000 in
theorem byteLeadingZeros_bounds :
    ∀ b < 256, b ≠ 0 →
      byteLeadingZeros b ≤ 7 ∧
      2 ^ (7 - byteLeadingZeros b) ≤ b ∧ b < 2 ^ (8 - byteLeadingZeros b) := by
  decide

theorem hashValue_lt (h : List Nat) (hb : ∀ b ∈ h, b < 256) :
    hashValue h < 256 ^ h.length := by
  induction h with
  | nil => simp [hashValue]
  | cons b rest ih =>
    have hb' : ∀ x ∈ rest, x < 256 := fun x hx => hb x (List.mem_cons_of_mem _ hx)
    have hbh : b < 256 := hb b (List.mem_cons_self _ _)
    have h1 := ih hb'
    simp only [hashValue, List.length_cons, pow_succ]
    calc b * 256 ^ rest.length + hashValue rest
        < b * 256 ^ rest.length + 256 ^ rest.length := by omega
      _ = (b + 1) * 256 ^ rest.length := by ring
      _ ≤ 256 * 256 ^ rest.length := by
          exact Nat.mul_le_mul_right _ (by omega)
      _ = 256 ^ rest.length * 256 := by ring

theorem pow256_eq (n : Nat) : (256 : Nat) ^ n = 2 ^ (8 * n) := by
  rw [pow_mul]; norm_num

/-- Main bound: a nonzero hash with `z` leading zero bits lies in
`[2^(8·len − 1 − z), 2^(8·len − z))`, phrased multiplicatively to avoid
natural-number subtraction. -/
theorem hashValue_clz_bounds (h : List Nat) (hb : ∀ b ∈ h, b < 256)
    (h0 : hashValue h ≠ 0) :
    2 ^ (8 * h.length) ≤ 2 * (hashValue h * 2 ^ countLeadingZeros h) ∧
    hashValue h * 2 ^ countLeadingZeros h < 2 ^ (8 * h.length) := by
  induction h with
  | nil => simp [hashValue] at h0
  | cons b rest ih =>
    have hb' : ∀ x ∈ rest, x < 256 := fun x hx => hb x (List.mem_cons_of_mem _ hx)
    have hbh : b < 256 := hb b (List.mem_cons_self _ _)
    have hlen : (2 : Nat) ^ (8 * (rest.length + 1)) = 2 ^ (8 * rest.length) * 256 := by
      rw [show 8 * (rest.length + 1) = 8 * rest.length + 8 by ring, pow_add]
      norm_num
    by_cases hbz : b = 0
    · subst hbz
      simp only [hashValue, Nat.zero_mul, Nat.zero_add] at h0 ⊢
      have h1 := ih hb' h0
      simp only [countLeadingZeros, if_pos rfl, if_true, eq_self_iff_true,
        List.length_cons]
      have hsplit : (2 : Nat) ^ (8 + countLeadingZeros rest)
          = 2 ^ countLeadingZeros rest * 256 := by
        rw [show 8 + countLeadingZeros rest = countLeadingZeros rest + 8 by ring, pow_add]
        norm_num
      rw [hlen, hsplit]
      constructor
      · calc 2 ^ (8 * rest.length) * 256
            ≤ 2 * (hashValue rest * 2 ^ countLeadingZeros rest) * 256 :=
              mul_le_mul_of_nonneg_right h1.1 (by omega)
          _ = 2 * (hashValue rest * (2 ^ countLeadingZeros rest * 256)) := by ring
      · calc hashValue rest * (2 ^ countLeadingZeros rest * 256)
            = hashValue rest * 2 ^ countLeadingZeros rest * 256 := by ring
          _ < 2 ^ (8 * rest.length) * 256 :=
              mul_lt_mul_of_pos_right h1.2 (by omega)
    · obtain ⟨hz7, hlo, hhi⟩ := byteLeadingZeros_bounds b hbh hbz
      simp only [countLeadingZeros, if_neg hbz, hashValue, List.length_cons]
      have hrest := hashValue_lt rest hb'
      set z := byteLeadingZeros b with hzdef
      have key1 : (2 : Nat) ^ (7 - z) * 2 ^ z = 2 ^ 7 := by
        rw [← pow_add, show 7 - z + z = 7 by omega]
      have key2 : (2 : Nat) ^ (8 - z) * 2 ^ z = 2 ^ 8 := by
        rw [← pow_add, show 8 - z + z = 8 by omega]
      have hb2 : (2 : Nat) ^ 7 ≤ b * 2 ^ z := by
        calc (2 : Nat) ^ 7 = 2 ^ (7 - z) * 2 ^ z := key1.symm
          _ ≤ b * 2 ^ z := mul_le_mul_of_nonneg_right hlo (by positivity)
      have hb3 : (b + 1) * 2 ^ z ≤ 2 ^ 8 := by
        calc (b + 1) * 2 ^ z ≤ 2 ^ (8 - z) * 2 ^ z :=
              mul_le_mul_of_nonneg_right hhi (by positivity)
          _ = 2 ^ 8 := key2
      rw [hlen, pow256_eq]
      constructor
      · calc 2 ^ (8 * rest.length) * 256 = 2 * (2 ^ 7 * 2 ^ (8 * rest.length)) := by
              norm_num; ring
          _ ≤ 2 * (b * 2 ^ z * 2 ^ (8 * rest.length)) := by
              have h5 : (2 : Nat) ^ 7 * 2 ^ (8 * rest.length)
                  ≤ b * 2 ^ z * 2 ^ (8 * rest.length) :=
                mul_le_mul_of_nonneg_right hb2 (by positivity)
              omega
          _ ≤ 2 * ((b * 2 ^ (8 * rest.length) + hashValue rest) * 2 ^ z) := by
              have h6 : b * 2 ^ z * 2 ^ (8 * rest.length)
                  ≤ (b * 2 ^ (8 * rest.length) + hashValue rest) * 2 ^ z := by
                calc b * 2 ^ z * 2 ^ (8 * rest.length)
                    = b * 2 ^ (8 * rest.length) * 2 ^ z := by ring
                  _ ≤ (b * 2 ^ (8 * rest.length) + hashValue rest) * 2 ^ z :=
                      mul_le_mul_of_nonneg_right (Nat.le_add_right _ _) (by positivity)
              omega
      · have hVlt : hashValue rest < 2 ^ (8 * rest.length) := by
          rw [← pow256_eq]; exact hrest
        calc (b * 2 ^ (8 * rest.length) + hashValue rest) * 2 ^ z
            < (b + 1) * 2 ^ (8 * rest.length) * 2 ^ z := by
              have : b * 2 ^ (8 * rest.length) + hashValue rest
                  < (b + 1) * 2 ^ (8 * rest.length) := by
                have : (b + 1) * 2 ^ (8 * rest.length)
                    = b * 2 ^ (8 * rest.length) + 2 ^ (8 * rest.length) := by ring
                omega
              exact mul_lt_mul_of_pos_right this (by positivity)
          _ = (b + 1) * 2 ^ z * 2 ^ (8 * rest.length) := by ring
          _ ≤ 2 ^ 8 * 2 ^ (8 * rest.length) :=
              mul_le_mul_of_nonneg_right hb3 (by positivity)
          _ = 2 ^ (8 * rest.length) * 256 := by norm_num; ring

/-- All-ones hash, the largest 256-bit value. -/
def ffBytes : List Nat := List.replicate 32 255

/-- C1, counterexample: at the difficulty-1 target itself the exact share
difficulty is `⌊pool_diff1_target / hash⌋ = 1`, yet `CalculateShareDifficulty`
returns 65536 — the leading-zero approximation over-credits, so it does not
round conservatively as the claim states. -/
theorem c1_counterexample :
    isHashBytes diff1Bytes ∧
    hashValue diff1Bytes = poolDiff1Target ∧
    poolDiff1Target / hashValue diff1Bytes = 1 ∧
    calculateShareDifficulty diff1Bytes = 65536 ∧
    ¬ calculateShareDifficulty diff1Bytes ≤ poolDiff1Target / hashValue diff1Bytes := by
  refine ⟨by decide, by decide, by decide, by decide, by decide⟩

/-- C1, amended: the approximation errs in the opposite direction from the
claim.  For every nonzero 256-bit hash, `CalculateShareDifficulty` returns at
least the exact difficulty `⌊pool_diff1_target / uint256(hash)⌋` (saturated at
`UINT64_MAX`): the leading-zero count never under-credits a share, and by the
counterexample it can strictly over-credit. -/
theorem c1_difficulty_never_under_credits (h : List Nat)
    (hh : isHashBytes h) (h0 : hashValue h ≠ 0) :
    min (poolDiff1Target / hashValue h) UINT64_MAX ≤ calculateShareDifficulty h := by
  obtain ⟨hl, hb⟩ := hh
  have hbounds := hashValue_clz_bounds h hb h0
  rw [hl] at hbounds
  norm_num at hbounds
  set z := countLeadingZeros h with hz
  set v := hashValue h with hv
  have hlow : 2 ^ 255 ≤ v * 2 ^ z := by
    have h1 := hbounds.1
    have h2 : (2 : Nat) ^ 256 = 2 * 2 ^ 255 := by rw [pow_succ]; ring
    omega
  unfold calculateShareDifficulty
  rw [← hz]
  by_cases hz32 : z < 32
  · rw [if_pos hz32]
    have hv224 : 2 ^ 224 ≤ v := by
      have hzle : (2 : Nat) ^ z ≤ 2 ^ 31 := Nat.pow_le_pow_right (by omega) (by omega)
      have : 2 ^ 224 * 2 ^ 31 ≤ v * 2 ^ 31 := by
        calc (2 : Nat) ^ 224 * 2 ^ 31 = 2 ^ 255 := by rw [← pow_add]
          _ ≤ v * 2 ^ z := hlow
          _ ≤ v * 2 ^ 31 := Nat.mul_le_mul_left _ hzle
      exact Nat.le_of_mul_le_mul_right this (by positivity)
    have hTlt : poolDiff1Target < v := by
      calc poolDiff1Target = 65535 * 2 ^ 208 := rfl
        _ < 65536 * 2 ^ 208 := by
            exact mul_lt_mul_of_pos_right (by norm_num) (by positivity)
        _ = 2 ^ 224 := by rw [show (65536 : Nat) = 2 ^ 16 by norm_num, ← pow_add]
        _ ≤ v := hv224
    rw [Nat.div_eq_of_lt hTlt]
    simp
  · rw [if_neg hz32]
    by_cases hz80 : 48 ≤ z - 32
    · rw [if_pos hz80]
      exact min_le_right _ _
    · rw [if_neg hz80]
      have hz79 : z ≤ 79 := by omega
      have hvlow : 2 ^ (255 - z) ≤ v := by
        have : 2 ^ (255 - z) * 2 ^ z ≤ v * 2 ^ z := by
          rw [← pow_add, show 255 - z + z = 255 by omega]
          exact hlow
        exact Nat.le_of_mul_le_mul_right this (by positivity)
      have hdiv : poolDiff1Target / v < 65536 * 2 ^ (z - 32) := by
        rw [Nat.div_lt_iff_lt_mul (by omega)]
        calc poolDiff1Target < 2 ^ 224 := by
              calc poolDiff1Target = 65535 * 2 ^ 208 := rfl
                _ < 65536 * 2 ^ 208 :=
                    mul_lt_mul_of_pos_right (by norm_num) (by positivity)
                _ = 2 ^ 224 := by
                    rw [show (65536 : Nat) = 2 ^ 16 by norm_num, ← pow_add]
          _ ≤ 2 ^ 239 := Nat.pow_le_pow_right (by omega) (by omega)
          _ = 65536 * 2 ^ (z - 32) * 2 ^ (255 - z) := by
              rw [show (65536 : Nat) = 2 ^ 16 by norm_num, ← pow_add, ← pow_add]
              congr 1
              omega
          _ ≤ 65536 * 2 ^ (z - 32) * v :=
              Nat.mul_le_mul_left _ hvlow
      calc min (poolDiff1Target / v) UINT64_MAX ≤ poolDiff1Target / v :=
            min_le_left _ _
        _ ≤ 65536 * 2 ^ (z - 32) := le_of_lt hdiv
        _ ≤ max (65536 * 2 ^ (z - 32)) 1 := le_max_left _ _

/-- C1, witness for the amended theorem at the all-ones hash: its exact
difficulty is 0, and the function returns at least that. -/
theorem c1_witness :
    (isHashBytes ffBytes ∧ hashValue ffBytes ≠ 0) ∧
    min (poolDiff1Target / hashValue ffBytes) UINT64_MAX
      ≤ calculateShareDifficulty ffBytes :=
  ⟨⟨by decide, by decide⟩,
   c1_difficulty_never_under_credits ffBytes (by decide) (by decide)⟩

/-! ## VarDiff controller (`pool.cpp`, `VarDiffManager::CalculateDifficulty`) -/

/-- `VarDiffManager::CalculateDifficulty` (`src/pool/pool.cpp:45-65`).
Timestamps are modelled in whole seconds (the source applies
`duration_cast<seconds>` to `back() - front()`); the `double` average and
comparison against `1 ± variance` are modelled exactly in `ℚ`;
`static_cast<uint64_t>(d * 1.5)` and `static_cast<uint64_t>(d * 0.75)`
truncate toward zero, i.e. compute `⌊3d/2⌋` and `⌊3d/4⌋` (exact in IEEE
doubles for the difficulty magnitudes a pool uses).  The result is clamped
below by the literal constant 1000; the function has no access to the
configured `min_difficulty`/`max_difficulty` and applies no upper clamp. -/
def calculateDifficulty (targetShareTime variance : ℚ)
    (currentDifficulty : Nat) (recentShares : List Int) : Nat :=
  if recentShares.length < 3 then currentDifficulty
  else
    let total : Int := recentShares.getLast?.getD 0 - recentShares.head?.getD 0
    let avgTime : ℚ := (total : ℚ) / ((recentShares.length : ℚ) - 1)
    let avgOverTarget : ℚ := avgTime / targetShareTime
    let newDiff : Nat :=
      if avgOverTarget < 1 - variance then 3 * currentDifficulty / 2
      else if 1 + variance < avgOverTarget then 3 * currentDifficulty / 4
      else currentDifficulty
    max 1000 newDiff

/-- Ten timestamps 4 seconds apart (spec scenario 5, fast worker). -/
def fastStamps : List Int := [0, 4, 8, 12, 16, 20, 24, 28, 32, 36]

/-- Ten timestamps 30 seconds apart (spec scenario 5, slow worker). -/
def slowStamps : List Int := [0, 30, 60, 90, 120, 150, 180, 210, 240, 270]

/-- C6, counterexample: a worker at difficulty 1001 submitting three shares
1 second apart (target 15 s, variance 0.3) triggers the increase branch.
The source returns the truncation `⌊1001 × 1.5⌋ = 1501`, not the claimed
round-up 1502; and with `max_difficulty = 1200` the claimed clamp into
`[min_difficulty, max_difficulty]` also fails, since 1501 > 1200 and the
function never reads those configuration fields. -/
theorem c6_counterexample :
    calculateDifficulty 15 (3 / 10) 1001 [0, 1, 2] = 1501 ∧
    (1501 : Nat) ≠ 1502 ∧ ¬ (1501 : Nat) ≤ 1200 := by
  refine ⟨?_, by decide, by decide⟩
  unfold calculateDifficulty
  norm_num

/-- C6, amended: with at least 3 recent timestamps the new difficulty is
`⌊old × 1.5⌋` when the average inter-share time is below `(1 − variance) ×
target`, `⌊old × 0.75⌋` when above `(1 + variance) × target`, else unchanged,
and the result is clamped below by the constant 1000 (not by the configured
minimum) with no upper clamp; hence it is always ≥ 1000 and never exceeds
`max 1000 ⌊old × 1.5⌋`.  In the spec scenario (difficulty 1024, target 15 s,
variance 0.3), 4-second spacing yields 1536 as the spec states, but 30-second
spacing yields `max(1000, ⌊1024 × 0.75⌋) = 1000`, not the 768 of the spec. -/
theorem c6_vardiff_adjustment (targetShareTime variance : ℚ)
    (currentDifficulty : Nat) (recentShares : List Int)
    (h3 : 3 ≤ recentShares.length) :
    1000 ≤ calculateDifficulty targetShareTime variance currentDifficulty recentShares ∧
    calculateDifficulty targetShareTime variance currentDifficulty recentShares
      ≤ max 1000 (3 * currentDifficulty / 2) ∧
    calculateDifficulty 15 (3 / 10) 1024 fastStamps = 1536 ∧
    calculateDifficulty 15 (3 / 10) 1024 slowStamps = 1000 := by
  refine ⟨?_, ?_, ?_, ?_⟩
  · unfold calculateDifficulty
    rw [if_neg (by omega)]
    exact le_max_left _ _
  · unfold calculateDifficulty
    rw [if_neg (by omega)]
    have hq : 3 * currentDifficulty / 4 ≤ 3 * currentDifficulty / 2 :=
      Nat.div_le_div_left (by omega) (by omega)
    have hd : currentDifficulty ≤ 3 * currentDifficulty / 2 := by
      rw [Nat.le_div_iff_mul_le (by omega)]
      omega
    dsimp only
    split
    · exact le_refl _
    · split
      · exact max_le_max (le_refl _) hq
      · exact max_le_max (le_refl _) hd
  · unfold calculateDifficulty fastStamps
    norm_num
  · unfold calculateDifficulty slowStamps
    norm_num

/-- C6, witness for the amended theorem at the fast-worker scenario. -/
theorem c6_witness :
    3 ≤ fastStamps.length ∧
    1000 ≤ calculateDifficulty 15 (3 / 10) 1024 fastStamps :=
  ⟨by decide, (c6_vardiff_adjustment 15 (3 / 10) 1024 fastStamps (by decide)).1⟩

/-! ## Shares and payout calculators (`pool.cpp`, `PayoutCalculator`) -/

/-- The `Share` record (`include/intcoin/pool.h:73-86`).  `uint256` fields
are modelled as `Nat` (`shareHash` keeps its byte list, most significant
first, because `CalculateShareDifficulty` reads it bytewise), time points as
seconds. -/
structure Share where
  shareId : Nat
  minerId : Nat
  workerId : Nat
  workerName : String
  jobId : Nat
  nonce : Nat
  shareHash : List Nat
  difficulty : Nat
  isBlock : Bool
  timestamp : Int
  valid : Bool
  errorMsg : String
deriving DecidableEq

/-- `PayoutCalculator::CalculateFee` (`pool.cpp:211-213`):
`static_cast<uint64_t>(amount * fee_percent / 100.0)`, i.e. the truncation
of `amount × fee_percent / 100`; the `double` arithmetic is modelled
exactly in `ℚ`. -/
def calculateFee (amount : Nat) (feePercent : ℚ) : Nat :=
  (⌊(amount : ℚ) * feePercent / 100⌋).toNat

/-- Count of valid shares of miner `m` in a share list (the per-miner tally
built by the loops in `CalculatePPLNS` / `CalculateProportional`). -/
def countShares (l : List Share) (m : Nat) : Nat :=
  l.countP (fun s => s.valid && s.minerId == m)

/-- Count of all valid shares in a share list (the `total` accumulator). -/
def totalValid (l : List Share) : Nat :=
  l.countP (fun s => s.valid)

/-- The last `n` shares of the list: `CalculatePPLNS` starts its loop at
`size > n ? size - n : 0` (`pool.cpp:144`), which is `drop (length - n)`. -/
def windowOf (l : List Share) (n : Nat) : List Share :=
  l.drop (l.length - n)

/-- `PayoutCalculator::CalculatePPLNS` (`pool.cpp:132-162`), expressed as the
payout of one miner `m` (the C++ returns a map; a miner absent from the map —
zero valid shares in the window — receives 0, which coincides with this
function's value). -/
def calculatePPLNS (shares : List Share) (nShares blockReward : Nat)
    (poolFee : ℚ) (m : Nat) : Nat :=
  let fee := calculateFee blockReward poolFee
  let reward := blockReward - fee
  let w := windowOf shares nShares
  let total := totalValid w
  if total = 0 then 0 else reward * countShares w m / total

/-- `PayoutCalculator::CalculateProportional` (`pool.cpp:183-209`): as
PPLNS but over the whole round share list, no window. -/
def calculateProportional (roundShares : List Share) (blockReward : Nat)
    (poolFee : ℚ) (m : Nat) : Nat :=
  let fee := calculateFee blockReward poolFee
  let reward := blockReward - fee
  let total := totalValid roundShares
  if total = 0 then 0 else reward * countShares roundShares m / total

/-- A minimal valid share of miner `m` for concrete payout instances. -/
def mkShare (m : Nat) : Share :=
  { shareId := 0, minerId := m, workerId := 0, workerName := "", jobId := 0,
    nonce := 0, shareHash := [], difficulty := 0, isBlock := false,
    timestamp := 0, valid := true, errorMsg := "" }

/-- The literal PPLNS instance of spec scenario 6: 1000 valid shares split
300 / 200 / 500 across miners 1, 2, 3. -/
def pplnsShares : List Share :=
  List.replicate 300 (mkShare 1) ++ List.replicate 200 (mkShare 2) ++
    List.replicate 500 (mkShare 3)

theorem countP_replicate {α : Type} (p : α → Bool) (n : Nat) (a : α) :
    (List.replicate n a).countP p = if p a then n else 0 := by
  induction n with
  | zero => simp
  | succ k ih =>
    rw [List.replicate_succ, List.countP_cons, ih]
    split <;> simp_all

theorem fee_literal : calculateFee 100000000 1 = 1000000 := by
  unfold calculateFee
  rw [show ((100000000 : Nat) : ℚ) * 1 / 100 = ((1000000 : ℤ) : ℚ) by
      push_cast; norm_num,
    Int.floor_intCast]
  rfl

set_option maxRecDepth 4000 in
theorem counts_literal :
    countShares pplnsShares 1 = 300 ∧ countShares pplnsShares 2 = 200 ∧
    countShares pplnsShares 3 = 500 ∧ totalValid pplnsShares = 1000 ∧
    pplnsShares.length = 1000 := by
  refine ⟨?_, ?_, ?_, ?_, ?_⟩ <;>
    simp [countShares, totalValid, pplnsShares, List.countP_append,
      countP_replicate, mkShare]

/-- C4: `CalculatePPLNS` pays each miner `⌊(R − fee) × count[m] / total⌋`
with `fee = CalculateFee R f`, and on the literal spec instance
(R = 100 000 000, fee 1 %, window 1000, share counts 300/200/500) the
payouts are 29 700 000, 19 800 000 and 49 500 000 with fee 1 000 000. -/
theorem c4_pplns_formula :
    (∀ (shares : List Share) (nShares blockReward : Nat) (poolFee : ℚ) (m : Nat),
      calculatePPLNS shares nShares blockReward poolFee m =
        if totalValid (windowOf shares nShares) = 0 then 0
        else (blockReward - calculateFee blockReward poolFee) *
          countShares (windowOf shares nShares) m /
            totalValid (windowOf shares nShares)) ∧
    calculatePPLNS pplnsShares 1000 100000000 1 1 = 29700000 ∧
    calculatePPLNS pplnsShares 1000 100000000 1 2 = 19800000 ∧
    calculatePPLNS pplnsShares 1000 100000000 1 3 = 49500000 ∧
    calculateFee 100000000 1 = 1000000 := by
  obtain ⟨hc1, hc2, hc3, htot, hlen⟩ := counts_literal
  have hwin : windowOf pplnsShares 1000 = pplnsShares := by
    unfold windowOf
    rw [hlen]
    simp
  refine ⟨fun shares nShares blockReward poolFee m => rfl, ?_, ?_, ?_, fee_literal⟩ <;>
    · unfold calculatePPLNS
      rw [fee_literal, hwin]
      dsimp only
      rw [htot, if_neg (by omega)]
      first
        | rw [hc1]
        | rw [hc2]
        | rw [hc3]

theorem list_sum_map_add {α : Type} (f g : α → Nat) (l : List α) :
    (l.map (fun x => f x + g x)).sum = (l.map f).sum + (l.map g).sum := by
  induction l with
  | nil => simp
  | cons a t ih => simp [ih]; omega

theorem sum_indicator_zero (v : Nat) (ms : List Nat) (hv : v ∉ ms) :
    (ms.map (fun m => if v = m then 1 else 0)).sum = 0 := by
  induction ms with
  | nil => simp
  | cons a t ih =>
    simp only [List.map_cons, List.sum_cons]
    have hva : v ≠ a := fun h => hv (h ▸ List.mem_cons_self _ _)
    have hvt : v ∉ t := fun h => hv (List.mem_cons_of_mem _ h)
    simp [hva, ih hvt]

theorem sum_indicator_le_one (v : Nat) (ms : List Nat) (hnd : ms.Nodup) :
    (ms.map (fun m => if v = m then 1 else 0)).sum ≤ 1 := by
  induction ms with
  | nil => simp
  | cons a t ih =>
    obtain ⟨ha, ht⟩ := List.nodup_cons.mp hnd
    simp only [List.map_cons, List.sum_cons]
    by_cases hva : v = a
    · subst hva
      rw [sum_indicator_zero v t ha]
      simp
    · rw [if_neg hva]
      simpa using ih ht

theorem sum_countShares_le (w : List Share) (ms : List Nat) (hnd : ms.Nodup) :
    (ms.map (countShares w)).sum ≤ totalValid w := by
  induction w with
  | nil =>
    have h : ms.map (countShares []) = ms.map (fun _ => 0) :=
      List.map_congr_left (fun m _ => by simp [countShares])
    rw [h]
    simp [totalValid]
  | cons s t ih =>
    have hcount : ∀ m, countShares (s :: t) m =
        countShares t m + (if s.valid && s.minerId == m then 1 else 0) :=
      fun m => List.countP_cons _ _ _
    have htot : totalValid (s :: t) = totalValid t + (if s.valid then 1 else 0) :=
      List.countP_cons _ _ _
    have hmap : (ms.map (countShares (s :: t))).sum =
        (ms.map (countShares t)).sum +
          (ms.map (fun m => if s.valid && s.minerId == m then 1 else 0)).sum := by
      rw [show ms.map (countShares (s :: t)) = ms.map (fun m =>
          countShares t m + (if s.valid && s.minerId == m then 1 else 0)) from
        List.map_congr_left (fun m _ => hcount m)]
      exact list_sum_map_add _ _ ms
    have hind : (ms.map (fun m => if s.valid && s.minerId == m then 1 else 0)).sum
        ≤ (if s.valid then 1 else 0) := by
      by_cases hv : s.valid
      · simp only [hv, Bool.true_and, if_pos, beq_iff_eq]
        exact sum_indicator_le_one s.minerId ms hnd
      · simp [hv]
    rw [hmap, htot]
    have := ih
    omega

theorem nat_div_add_le (a b t : Nat) (ht : 0 < t) : a / t + b / t ≤ (a + b) / t := by
  rw [Nat.le_div_iff_mul_le ht]
  have h1 := Nat.div_mul_le_self a t
  have h2 := Nat.div_mul_le_self b t
  calc (a / t + b / t) * t = a / t * t + b / t * t := by ring
    _ ≤ a + b := by omega

theorem payout_sum_le (w : List Share) (reward : Nat) (ms : List Nat)
    (hnd : ms.Nodup) :
    (ms.map (fun m => if totalValid w = 0 then 0
      else reward * countShares w m / totalValid w)).sum ≤ reward := by
  by_cases h0 : totalValid w = 0
  · simp [h0]
  · simp only [if_neg h0]
    have ht : 0 < totalValid w := Nat.pos_of_ne_zero h0
    have key : ∀ cs : List Nat,
        (cs.map (fun c => reward * c / totalValid w)).sum
          ≤ reward * cs.sum / totalValid w := by
      intro cs
      induction cs with
      | nil => simp
      | cons c cs ih =>
        simp only [List.map_cons, List.sum_cons]
        calc reward * c / totalValid w +
              (cs.map (fun c => reward * c / totalValid w)).sum
            ≤ reward * c / totalValid w + reward * cs.sum / totalValid w := by
              omega
          _ ≤ (reward * c + reward * cs.sum) / totalValid w :=
              nat_div_add_le _ _ _ ht
          _ = reward * (c + cs.sum) / totalValid w := by ring_nf
    have hmm : (ms.map (fun m => reward * countShares w m / totalValid w)).sum
        = ((ms.map (countShares w)).map (fun c => reward * c / totalValid w)).sum := by
      rw [List.map_map]
      rfl
    calc (ms.map (fun m => reward * countShares w m / totalValid w)).sum
        = ((ms.map (countShares w)).map (fun c => reward * c / totalValid w)).sum :=
          hmm
      _ ≤ reward * (ms.map (countShares w)).sum / totalValid w := key _
      _ ≤ reward * totalValid w / totalValid w := by
          have := sum_countShares_le w ms hnd
          exact Nat.div_le_div_right (Nat.mul_le_mul_left _ this)
      _ = reward := by
          rw [Nat.mul_div_assoc _ (dvd_refl _), Nat.div_self ht, mul_one]

/-- C9: for every share list, window, reward and fee percentage at most 100
(the configured range, under which `block_reward - fee` does not underflow),
and every duplicate-free list of miner ids, the PPLNS and proportional
payouts sum to at most the reward net of the pool fee: the calculators never
distribute more than `R − CalculateFee(R, f)`. -/
theorem c9_payout_conservation (shares : List Share) (nShares blockReward : Nat)
    (poolFee : ℚ) (ms : List Nat) (hnd : ms.Nodup) (_hf : poolFee ≤ 100) :
    (ms.map (calculatePPLNS shares nShares blockReward poolFee)).sum
      ≤ blockReward - calculateFee blockReward poolFee ∧
    (ms.map (calculateProportional shares blockReward poolFee)).sum
      ≤ blockReward - calculateFee blockReward poolFee := by
  constructor
  · exact payout_sum_le (windowOf shares nShares) _ ms hnd
  · exact payout_sum_le shares _ ms hnd

/-- C9, witness at the literal PPLNS instance: miners 1, 2, 3 with fee 1 %
of 100 000 000. -/
theorem c9_witness :
    (([1, 2, 3] : List Nat).Nodup ∧ (1 : ℚ) ≤ 100) ∧
    (([1, 2, 3] : List Nat).map (calculatePPLNS pplnsShares 1000 100000000 1)).sum
      ≤ 100000000 - calculateFee 100000000 1 :=
  ⟨⟨by decide, by norm_num⟩,
   (c9_payout_conservation pplnsShares 1000 100000000 1 [1, 2, 3]
      (by decide) (by norm_num)).1⟩

/-! ## Share validation (`pool.cpp`, `ShareValidator` and
`MiningPoolServer::ValidateShare`) -/

/-- The fields of `Work` read by share validation (`include/intcoin/pool.h:
88-98`): job id, creation time, and the network difficulty stored in
`work.difficulty`. -/
structure WorkR where
  jobId : Nat
  createdAt : Int
  difficulty : Nat
deriving DecidableEq

/-- `ShareValidator::ValidateDifficulty` (`pool.cpp:86-95`): the share is
valid when `CalculateShareDifficulty(hash) >= difficulty`. -/
def validateDifficulty (hash : List Nat) (difficulty : Nat) : Bool :=
  difficulty ≤ calculateShareDifficulty hash

/-- `ShareValidator::ValidateWork` (`pool.cpp:97-99`): only the job ids are
compared. -/
def validateWork (s : Share) (w : WorkR) : Bool :=
  s.jobId == w.jobId

/-- `ShareValidator::ValidateTimestamp` (`pool.cpp:112-117`): the share time
minus the work creation time must be in `[0, 300)` seconds. -/
def validateTimestamp (s : Share) (w : WorkR) : Bool :=
  decide (0 ≤ s.timestamp - w.createdAt) && decide (s.timestamp - w.createdAt < 300)

/-- `ShareValidator::IsValidBlock` (`pool.cpp:101-110`): the share is a
block candidate when `CalculateShareDifficulty(hash) >= network_difficulty` —
the same leading-zero approximation, not a 256-bit comparison against the
network target. -/
def isValidBlock (hash : List Nat) (networkDifficulty : Nat) : Bool :=
  networkDifficulty ≤ calculateShareDifficulty hash

/-- `ShareValidator::IsDuplicateShare` (`pool.cpp:119-126`): a linear scan
comparing only `(nonce, job_id)` — extranonce and ntime are not part of the
comparison (the `Share` record does not even carry them). -/
def isDuplicateShare (s : Share) (recent : List Share) : Bool :=
  recent.any (fun r => r.nonce == s.nonce && r.jobId == s.jobId)

/-- The network-target comparison the specification prescribes for block
promotion: `uint256(hash) ≤ network_target` with
`network_target = pool_diff1_target / difficulty` (spec glossary,
"difficulty d means the target is scaled by 1/d"). -/
def specNetworkTarget (networkDifficulty : Nat) : Nat :=
  poolDiff1Target / networkDifficulty

/-- `MiningPoolServer::ValidateShare` (`pool.cpp:958-988`): requires current
work, then rejects at the first failing check in the order difficulty,
stale work, timestamp, duplicate, returning the error strings of the
source. -/
def validateShare (currentWork : Option WorkR) (recent : List Share)
    (s : Share) : Except String Bool :=
  match currentWork with
  | none => .error "No current work available"
  | some w =>
    if validateDifficulty s.shareHash s.difficulty = false then
      .error "Share does not meet difficulty requirement"
    else if validateWork s w = false then
      .error "Share is for stale work"
    else if validateTimestamp s w = false then
      .error "Share timestamp invalid"
    else if isDuplicateShare s recent then
      .error "Duplicate share"
    else .ok true

/-! ## Share submission (`pool.cpp`, `MiningPoolServer::SubmitShare`) -/

/-- The pool configuration fields consumed by the modelled paths
(`include/intcoin/pool.h:31-67`). -/
structure PoolCfg where
  minPayout : Nat
  payoutInterval : Nat
  banOnInvalidShare : Bool
  maxInvalidShares : Nat
  targetShareTime : ℚ
  vardiffRetargetTime : ℚ
  vardiffVariance : ℚ
  initialDifficulty : Nat
deriving DecidableEq

/-- The `Worker` fields used by share submission and VarDiff
(`include/intcoin/pool.h:116-142`); the hashrate statistics and connection
metadata, which feed no modelled state, are elided. -/
structure WorkerR where
  workerId : Nat
  minerId : Nat
  workerName : String
  sharesSubmitted : Nat
  sharesAccepted : Nat
  sharesRejected : Nat
  blocksFound : Nat
  currentDifficulty : Nat
  lastShareTime : Int
  recentShares : List Int
deriving DecidableEq

/-- The `Miner` counters used by share submission
(`include/intcoin/pool.h:144-174`); balances are modelled separately for the
payout sweep, and `last_seen` / `ban_expires` are elided. -/
structure MinerCtr where
  minerId : Nat
  totalSharesSubmitted : Nat
  totalSharesAccepted : Nat
  totalSharesRejected : Nat
  totalBlocksFound : Nat
  invalidShareCount : Nat
  isBanned : Bool
deriving DecidableEq

/-- `VarDiffManager::ShouldAdjust` (`pool.cpp:67-72`): at least
`retarget_time` seconds since the last share and at least 3 recent
timestamps. -/
def shouldAdjust (retargetTime : ℚ) (now : Int) (w : WorkerR) : Bool :=
  decide (retargetTime ≤ ((now - w.lastShareTime : Int) : ℚ)) &&
    decide (3 ≤ w.recentShares.length)

/-- `MiningPoolServer::AdjustWorkerDifficulty` (`pool.cpp:1211-1229`):
recompute via VarDiff and store when changed (the network-side
`SendSetDifficulty` is a no-op stub in the source). -/
def adjustWorkerDifficulty (cfg : PoolCfg) (w : WorkerR) : WorkerR :=
  let newDiff := calculateDifficulty cfg.targetShareTime cfg.vardiffVariance
    w.currentDifficulty w.recentShares
  if newDiff ≠ w.currentDifficulty then { w with currentDifficulty := newDiff } else w

/-- Worker half of `MiningPoolServer::ProcessValidShare` (`pool.cpp:990-
1010`): bump submitted/accepted counters, append the share timestamp to the
ring (dropping the oldest entry above 100), then run the VarDiff adjustment
when due.  The `current_hashrate` update feeds no modelled state and is
elided. -/
def processValidShareWorker (cfg : PoolCfg) (now : Int) (w : WorkerR) : WorkerR :=
  let rs := w.recentShares ++ [now]
  let rs1 := if 100 < rs.length then rs.drop 1 else rs
  let w1 := { w with sharesSubmitted := w.sharesSubmitted + 1,
                     sharesAccepted := w.sharesAccepted + 1,
                     recentShares := rs1 }
  if shouldAdjust cfg.vardiffRetargetTime now w1 then adjustWorkerDifficulty cfg w1
  else w1

/-- Miner half of `MiningPoolServer::ProcessValidShare` (`pool.cpp:1012-
1021`): bump the submitted/accepted totals and reset `invalid_share_count`
to zero. -/
def processValidShareMiner (m : MinerCtr) : MinerCtr :=
  { m with totalSharesSubmitted := m.totalSharesSubmitted + 1,
           totalSharesAccepted := m.totalSharesAccepted + 1,
           invalidShareCount := 0 }

/-- `MiningPoolServer::CheckInvalidShares` (`pool.cpp:1860-1869`): when
banning is enabled and `invalid_share_count >= max_invalid_shares`, ban the
miner (the ban expiry time is elided). -/
def checkInvalidShares (cfg : PoolCfg) (m : MinerCtr) : MinerCtr :=
  if cfg.banOnInvalidShare && decide (cfg.maxInvalidShares ≤ m.invalidShareCount) then
    { m with isBanned := true }
  else m

/-- `recent_shares_` trimming in `SubmitShare` (`pool.cpp:949-953`): above
10000 entries, drop the oldest 1000. -/
def trimRecent (l : List Share) : List Share :=
  if 10000 < l.length then l.drop 1000 else l

/-- Result of one `SubmitShare` call: outcome, updated worker and miner
records, updated recent-share list, and the share record it built
(`none` when validation rejected the submission before recording). -/
structure SubmitResult where
  ok : Bool
  errorMsg : String
  worker : WorkerR
  miner : MinerCtr
  recentShares : List Share
  recordedShare : Option Share
deriving DecidableEq

/-- `MiningPoolServer::SubmitShare` (`pool.cpp:879-956`): build the share at
the worker's current difficulty, validate it; on rejection bump the
rejected counters, bump `invalid_share_count` and run the ban check; on
acceptance run `ProcessValidShare`, then promote to a block via
`ShareValidator::IsValidBlock` against the chain difficulty — on promotion
`ProcessBlockFound` submits the block (`blockAccepted` models the
`Blockchain::AddBlock` outcome; on failure the function returns an error
before the share is appended to `recent_shares_`). -/
def submitShare (cfg : PoolCfg) (currentWork : Option WorkR)
    (networkDifficulty : Nat) (now : Int) (nextShareId : Nat)
    (w : WorkerR) (m : MinerCtr) (recent : List Share)
    (jobId nonce : Nat) (shareHash : List Nat) (blockAccepted : Bool) :
    SubmitResult :=
  let s : Share :=
    { shareId := nextShareId, minerId := w.minerId,
      workerId := w.workerId, workerName := w.workerName, jobId := jobId,
      nonce := nonce, shareHash := shareHash, difficulty := w.currentDifficulty,
      isBlock := false, timestamp := now, valid := false, errorMsg := "" }
  match validateShare currentWork recent s with
  | .error e =>
    { ok := false, errorMsg := "Share rejected: " ++ e,
      worker := { w with sharesRejected := w.sharesRejected + 1 },
      miner := checkInvalidShares cfg
        { m with totalSharesRejected := m.totalSharesRejected + 1,
                 invalidShareCount := m.invalidShareCount + 1 },
      recentShares := recent, recordedShare := none }
  | .ok _ =>
    let s1 := { s with valid := true }
    let w1 := processValidShareWorker cfg now w
    let m1 := processValidShareMiner m
    if isValidBlock shareHash networkDifficulty then
      let s2 := { s1 with isBlock := true }
      if blockAccepted then
        { ok := true, errorMsg := "",
          worker := { w1 with blocksFound := w1.blocksFound + 1 },
          miner := { m1 with totalBlocksFound := m1.totalBlocksFound + 1 },
          recentShares := trimRecent (recent ++ [s2]), recordedShare := some s2 }
      else
        { ok := false, errorMsg := "Share accepted but block processing failed",
          worker := w1, miner := m1, recentShares := recent,
          recordedShare := some s2 }
    else
      { ok := true, errorMsg := "", worker := w1, miner := m1,
        recentShares := trimRecent (recent ++ [s1]), recordedShare := some s1 }

/-! ## Stratum submit handling (`stratum_server.cpp`,
`StratumServer::HandleSubmit`) -/

/-- The all-zero placeholder hash `uint256 hash{}` that
`StratumServer::HandleSubmit` passes to `SubmitShare`
(`stratum_server.cpp:885`). -/
def zeroHash32 : List Nat := List.replicate 32 0

/-- A reply sent back on the Stratum connection for a submit: `result true`
on acceptance, or `SendError` with a code and message. -/
inductive StratumReply where
  | accepted
  | rejected (code : Nat) (message : String)
deriving DecidableEq

/-- The submit path of `StratumServer::HandleSubmit`
(`stratum_server.cpp:829-910`), from the point where the parameters parsed:
it calls `SubmitShare` with the zero placeholder hash and answers
`result:true` on success or `SendError(conn, 23, error)` — the literal
constant 23 — on any failure.  The earlier parameter-format and
authorization error paths (codes 20 and 25) are not modelled. -/
def stratumHandleSubmit (cfg : PoolCfg) (currentWork : Option WorkR)
    (networkDifficulty : Nat) (now : Int) (nextShareId : Nat)
    (w : WorkerR) (m : MinerCtr) (recent : List Share)
    (jobId nonce : Nat) (blockAccepted : Bool) :
    StratumReply × SubmitResult :=
  let r := submitShare cfg currentWork networkDifficulty now nextShareId w m
    recent jobId nonce zeroHash32 blockAccepted
  if r.ok then (.accepted, r) else (.rejected 23 r.errorMsg, r)

/-! ## Payout sweep (`MiningPoolServer::ProcessPayouts`, both
implementations) -/

/-- The `Miner` balance fields read and written by the payout sweep. -/
structure MinerAcct where
  minerId : Nat
  payoutAddress : String
  unpaidBalance : Nat
  paidBalance : Nat
  lastPayout : Int
deriving DecidableEq

/-- The `Payment` record (`include/intcoin/pool.h:100-110`); the zeroed
`tx_hash` and unset `confirmed_at` are elided. -/
structure PaymentR where
  paymentId : Nat
  minerId : Nat
  payoutAddress : String
  amount : Nat
  createdAt : Int
  isConfirmed : Bool
  status : String
deriving DecidableEq

/-- `MiningPoolServer::ProcessPayouts` as implemented in
`src/pool/pool.cpp:1289-1346`: walk the miner table; skip a miner whose
unpaid balance is below `min_payout` or whose last payout is less than
`payout_interval` seconds old; otherwise emit a `pending` payment for the
full unpaid balance, zero the unpaid balance and stamp `last_payout`.
This implementation leaves `paid_balance` untouched.  Returns the updated
miners, the payments appended to `payment_history_`, and the next payment
id. -/
def processPayouts (cfg : PoolCfg) (now : Int) :
    List MinerAcct → Nat → List MinerAcct × List PaymentR × Nat
  | [], pid => ([], [], pid)
  | m :: rest, pid =>
    if m.unpaidBalance < cfg.minPayout then
      let r := processPayouts cfg now rest pid
      (m :: r.1, r.2.1, r.2.2)
    else if now - m.lastPayout < (cfg.payoutInterval : Int) then
      let r := processPayouts cfg now rest pid
      (m :: r.1, r.2.1, r.2.2)
    else
      let r := processPayouts cfg now rest (pid + 1)
      ({ m with unpaidBalance := 0, lastPayout := now } :: r.1,
       ({ paymentId := pid, minerId := m.minerId,
          payoutAddress := m.payoutAddress, amount := m.unpaidBalance,
          createdAt := now, isConfirmed := false,
          status := "pending" } : PaymentR) :: r.2.1,
       r.2.2)

/-- `MiningPoolServer::ProcessPayouts` as implemented in
`src/pool/mining_pool_server.cpp:1059-1120`: identical guards and payment
record, but additionally `paid_balance += unpaid_balance` at payment
creation, while the payment is still `pending`
(`mining_pool_server.cpp:1096`). -/
def processPayoutsMPS (cfg : PoolCfg) (now : Int) :
    List MinerAcct → Nat → List MinerAcct × List PaymentR × Nat
  | [], pid => ([], [], pid)
  | m :: rest, pid =>
    if m.unpaidBalance < cfg.minPayout then
      let r := processPayoutsMPS cfg now rest pid
      (m :: r.1, r.2.1, r.2.2)
    else if now - m.lastPayout < (cfg.payoutInterval : Int) then
      let r := processPayoutsMPS cfg now rest pid
      (m :: r.1, r.2.1, r.2.2)
    else
      let r := processPayoutsMPS cfg now rest (pid + 1)
      ({ m with unpaidBalance := 0,
                paidBalance := m.paidBalance + m.unpaidBalance,
                lastPayout := now } :: r.1,
       ({ paymentId := pid, minerId := m.minerId,
          payoutAddress := m.payoutAddress, amount := m.unpaidBalance,
          createdAt := now, isConfirmed := false,
          status := "pending" } : PaymentR) :: r.2.1,
       r.2.2)

/-- Sum of the amounts of a given miner's payments in status `confirmed`
(the right-hand side of the spec invariant for `paid_balance`). -/
def confirmedTotal (minerId : Nat) (ps : List PaymentR) : Nat :=
  ((ps.filter (fun p => p.status == "confirmed" && p.minerId == minerId)).map
    (fun p => p.amount)).sum

/-! ## Concrete scenario records shared by the validation claims -/

/-- A current job: id 7, created at time 0, network difficulty 65536. -/
def workEx : WorkR := { jobId := 7, createdAt := 0, difficulty := 65536 }

/-- A pool configuration with the defaults relevant to the claims. -/
def cfgEx : PoolCfg :=
  { minPayout := 1000, payoutInterval := 3600, banOnInvalidShare := true,
    maxInvalidShares := 20, targetShareTime := 15, vardiffRetargetTime := 60,
    vardiffVariance := 3 / 10, initialDifficulty := 1000 }

/-- A fresh worker at difficulty 1000. -/
def workerEx : WorkerR :=
  { workerId := 1, minerId := 1, workerName := "rig1", sharesSubmitted := 0,
    sharesAccepted := 0, sharesRejected := 0, blocksFound := 0,
    currentDifficulty := 1000, lastShareTime := 0, recentShares := [] }

/-- A fresh miner record with zeroed counters. -/
def minerEx : MinerCtr :=
  { minerId := 1, totalSharesSubmitted := 0, totalSharesAccepted := 0,
    totalSharesRejected := 0, totalBlocksFound := 0, invalidShareCount := 0,
    isBanned := false }

/-- An already-recorded share of job 7 with nonce 5. -/
def s0Ex : Share :=
  { shareId := 1, minerId := 1, workerId := 1, workerName := "rig1", jobId := 7,
    nonce := 5, shareHash := zeroHash32, difficulty := 1000, isBlock := false,
    timestamp := 1, valid := true, errorMsg := "" }

/-- A re-submission of job 7 / nonce 5 (a duplicate of `s0Ex`) whose hash is
the all-ones value, so it is also far below the credited difficulty 1000. -/
def s1Ex : Share :=
  { shareId := 2, minerId := 1, workerId := 1, workerName := "rig1", jobId := 7,
    nonce := 5, shareHash := ffBytes, difficulty := 1000, isBlock := false,
    timestamp := 10, valid := false, errorMsg := "" }

/-- C7, counterexample: a submission that is both a duplicate of a recorded
share and below the credited difficulty is rejected by `ValidateShare` with
the low-difficulty error, not the duplicate error — the difficulty check
runs first and the duplicate check runs last, contrary to the claimed
order. -/
theorem c7_counterexample :
    isDuplicateShare s1Ex [s0Ex] = true ∧
    validateDifficulty s1Ex.shareHash s1Ex.difficulty = false ∧
    validateShare (some workEx) [s0Ex] s1Ex =
      .error "Share does not meet difficulty requirement" := by
  refine ⟨by decide, by decide, rfl⟩

/-- C7, amended: `ValidateShare` rejects in the order difficulty, stale
work, timestamp, duplicate — so any submission below the credited
difficulty, duplicate or not, is rejected with the difficulty error; and
the duplicate check compares only `(nonce, job_id)`, not the claimed
5-tuple. -/
theorem c7_difficulty_checked_before_duplicate (w : WorkR)
    (recent : List Share) (s : Share)
    (_hdup : isDuplicateShare s recent = true)
    (hdiff : validateDifficulty s.shareHash s.difficulty = false) :
    validateShare (some w) recent s =
      .error "Share does not meet difficulty requirement" := by
  unfold validateShare
  rw [hdiff]
  simp

/-- C7, witness for the amended theorem at the concrete duplicate
low-difficulty submission. -/
theorem c7_witness :
    (isDuplicateShare s1Ex [s0Ex] = true ∧
     validateDifficulty s1Ex.shareHash s1Ex.difficulty = false) ∧
    validateShare (some workEx) [s0Ex] s1Ex =
      .error "Share does not meet difficulty requirement" :=
  ⟨⟨by decide, by decide⟩,
   c7_difficulty_checked_before_duplicate workEx [s0Ex] s1Ex
     (by decide) (by decide)⟩

/-- C2, counterexample: with network difficulty 65536, a share whose hash is
the pool difficulty-1 target is promoted to a block candidate
(`is_block = true`, because the leading-zero approximation credits it
65536 ≥ 65536), yet its 256-bit value strictly exceeds the network target
`pool_diff1_target / 65536` — block promotion does not imply
`uint256(hash) ≤ network_target`. -/
theorem c2_counterexample :
    ((submitShare cfgEx (some workEx) 65536 10 1 workerEx minerEx [] 7 5
        diff1Bytes true).recordedShare.map Share.isBlock) = some true ∧
    specNetworkTarget 65536 < hashValue diff1Bytes := by
  exact ⟨rfl, by decide⟩

/-- C2, amended: share processing marks `is_block = true` exactly when
`CalculateShareDifficulty(hash) ≥ network_difficulty`
(`ShareValidator::IsValidBlock`), an approximate test that by the
counterexample does not imply `uint256(hash) ≤ network_target`. -/
theorem c2_is_block_iff_approx_difficulty (cfg : PoolCfg)
    (currentWork : Option WorkR) (networkDifficulty : Nat) (now : Int)
    (nextShareId : Nat) (w : WorkerR) (m : MinerCtr) (recent : List Share)
    (jobId nonce : Nat) (shareHash : List Nat) (blockAccepted : Bool) :
    ((submitShare cfg currentWork networkDifficulty now nextShareId w m
        recent jobId nonce shareHash blockAccepted).recordedShare.all
      (fun s => s.isBlock == isValidBlock shareHash networkDifficulty)) = true := by
  unfold submitShare
  dsimp only
  split
  · rfl
  · cases hvb : isValidBlock shareHash networkDifficulty <;>
      cases blockAccepted <;> simp [hvb]

/-- The reply of `HandleSubmit` is paired with the unchanged `SubmitShare`
result. -/
theorem stratumHandleSubmit_snd (cfg : PoolCfg) (currentWork : Option WorkR)
    (networkDifficulty : Nat) (now : Int) (nextShareId : Nat) (w : WorkerR)
    (m : MinerCtr) (recent : List Share) (jobId nonce : Nat)
    (blockAccepted : Bool) :
    (stratumHandleSubmit cfg currentWork networkDifficulty now nextShareId w m
      recent jobId nonce blockAccepted).2 =
    submitShare cfg currentWork networkDifficulty now nextShareId w m recent
      jobId nonce zeroHash32 blockAccepted := by
  unfold stratumHandleSubmit
  dsimp only
  split <;> rfl

/-- `checkInvalidShares` changes only the ban flag. -/
theorem checkInvalidShares_accepted (cfg : PoolCfg) (m : MinerCtr) :
    (checkInvalidShares cfg m).totalSharesAccepted = m.totalSharesAccepted ∧
    (checkInvalidShares cfg m).invalidShareCount = m.invalidShareCount := by
  unfold checkInvalidShares
  split <;> exact ⟨rfl, rfl⟩

/-- A validation-rejected submission leaves the acceptance state untouched:
`ok = false`, the worker's accepted counter, the miner's accepted total and
the recent-share list are all unchanged. -/
theorem submitShare_rejected_fields (cfg : PoolCfg) (currentWork : Option WorkR)
    (networkDifficulty : Nat) (now : Int) (nextShareId : Nat) (w : WorkerR)
    (m : MinerCtr) (recent : List Share) (jobId nonce : Nat)
    (shareHash : List Nat) (blockAccepted : Bool)
    (hrej : (submitShare cfg currentWork networkDifficulty now nextShareId w m
        recent jobId nonce shareHash blockAccepted).recordedShare = none) :
    (submitShare cfg currentWork networkDifficulty now nextShareId w m recent
        jobId nonce shareHash blockAccepted).ok = false ∧
    (submitShare cfg currentWork networkDifficulty now nextShareId w m recent
        jobId nonce shareHash blockAccepted).worker.sharesAccepted =
      w.sharesAccepted ∧
    (submitShare cfg currentWork networkDifficulty now nextShareId w m recent
        jobId nonce shareHash blockAccepted).miner.totalSharesAccepted =
      m.totalSharesAccepted ∧
    (submitShare cfg currentWork networkDifficulty now nextShareId w m recent
        jobId nonce shareHash blockAccepted).recentShares = recent := by
  unfold submitShare at hrej ⊢
  dsimp only at hrej ⊢
  split at hrej
  · exact ⟨rfl, rfl, (checkInvalidShares_accepted cfg _).1, rfl⟩
  · split at hrej
    · split at hrej <;> simp at hrej
    · simp at hrej

/-- C8, counterexample: an accepted share re-submitted with the same
`(job_id, nonce)` is rejected, but the wire reply carries the literal error
code 23 with message `"Share rejected: Duplicate share"`, not the claimed
taxonomy entry `[22, "Duplicate share", null]` — `HandleSubmit` reports
every rejection with code 23. -/
theorem c8_counterexample :
    (stratumHandleSubmit cfgEx (some workEx) 65536 10 1 workerEx minerEx []
      7 5 true).1 = .accepted ∧
    (stratumHandleSubmit cfgEx (some workEx) 65536 20 2
      (stratumHandleSubmit cfgEx (some workEx) 65536 10 1 workerEx minerEx []
        7 5 true).2.worker
      (stratumHandleSubmit cfgEx (some workEx) 65536 10 1 workerEx minerEx []
        7 5 true).2.miner
      (stratumHandleSubmit cfgEx (some workEx) 65536 10 1 workerEx minerEx []
        7 5 true).2.recentShares
      7 5 true).1 = .rejected 23 "Share rejected: Duplicate share" ∧
    (StratumReply.rejected 23 "Share rejected: Duplicate share" ≠
      StratumReply.rejected 22 "Duplicate share") := by
  exact ⟨rfl, rfl, by decide⟩

/-- C8, amended: `HandleSubmit` answers every validation-rejected share with
the fixed error code 23 carrying the rejection reason (so a duplicate
re-submission gets `[23, "Share rejected: Duplicate share", null]` rather
than `[22, "Duplicate share", null]`), while the counters of the first
acceptance — the worker's and miner's accepted counts and the recorded
share list — are unchanged by the re-submission (exactly-once credit). -/
theorem c8_rejections_use_code_23 (cfg : PoolCfg) (currentWork : Option WorkR)
    (networkDifficulty : Nat) (now : Int) (nextShareId : Nat) (w : WorkerR)
    (m : MinerCtr) (recent : List Share) (jobId nonce : Nat)
    (blockAccepted : Bool)
    (hrej : (stratumHandleSubmit cfg currentWork networkDifficulty now
        nextShareId w m recent jobId nonce blockAccepted).2.recordedShare =
      none) :
    (stratumHandleSubmit cfg currentWork networkDifficulty now nextShareId w m
        recent jobId nonce blockAccepted).1 =
      .rejected 23 (stratumHandleSubmit cfg currentWork networkDifficulty now
        nextShareId w m recent jobId nonce blockAccepted).2.errorMsg ∧
    (stratumHandleSubmit cfg currentWork networkDifficulty now nextShareId w m
        recent jobId nonce blockAccepted).2.worker.sharesAccepted =
      w.sharesAccepted ∧
    (stratumHandleSubmit cfg currentWork networkDifficulty now nextShareId w m
        recent jobId nonce blockAccepted).2.miner.totalSharesAccepted =
      m.totalSharesAccepted ∧
    (stratumHandleSubmit cfg currentWork networkDifficulty now nextShareId w m
        recent jobId nonce blockAccepted).2.recentShares = recent := by
  rw [stratumHandleSubmit_snd] at hrej ⊢
  obtain ⟨hok, hwk, hmn, hrc⟩ := submitShare_rejected_fields cfg currentWork
    networkDifficulty now nextShareId w m recent jobId nonce zeroHash32
    blockAccepted hrej
  refine ⟨?_, hwk, hmn, hrc⟩
  unfold stratumHandleSubmit
  dsimp only
  rw [if_neg (by rw [hok]; exact Bool.false_ne_true)]

/-- C8, witness for the amended theorem at the duplicate re-submission of
the counterexample scenario. -/
theorem c8_witness :
    ((stratumHandleSubmit cfgEx (some workEx) 65536 20 2
        (stratumHandleSubmit cfgEx (some workEx) 65536 10 1 workerEx minerEx []
          7 5 true).2.worker
        (stratumHandleSubmit cfgEx (some workEx) 65536 10 1 workerEx minerEx []
          7 5 true).2.miner
        (stratumHandleSubmit cfgEx (some workEx) 65536 10 1 workerEx minerEx []
          7 5 true).2.recentShares
        7 5 true).2.recordedShare = none) ∧
    (stratumHandleSubmit cfgEx (some workEx) 65536 20 2
        (stratumHandleSubmit cfgEx (some workEx) 65536 10 1 workerEx minerEx []
          7 5 true).2.worker
        (stratumHandleSubmit cfgEx (some workEx) 65536 10 1 workerEx minerEx []
          7 5 true).2.miner
        (stratumHandleSubmit cfgEx (some workEx) 65536 10 1 workerEx minerEx []
          7 5 true).2.recentShares
        7 5 true).1 =
      .rejected 23 (stratumHandleSubmit cfgEx (some workEx) 65536 20 2
        (stratumHandleSubmit cfgEx (some workEx) 65536 10 1 workerEx minerEx []
          7 5 true).2.worker
        (stratumHandleSubmit cfgEx (some workEx) 65536 10 1 workerEx minerEx []
          7 5 true).2.miner
        (stratumHandleSubmit cfgEx (some workEx) 65536 10 1 workerEx minerEx []
          7 5 true).2.recentShares
        7 5 true).2.errorMsg :=
  ⟨rfl,
   (c8_rejections_use_code_23 cfgEx (some workEx) 65536 20 2
      (stratumHandleSubmit cfgEx (some workEx) 65536 10 1 workerEx minerEx []
        7 5 true).2.worker
      (stratumHandleSubmit cfgEx (some workEx) 65536 10 1 workerEx minerEx []
        7 5 true).2.miner
      (stratumHandleSubmit cfgEx (some workEx) 65536 10 1 workerEx minerEx []
        7 5 true).2.recentShares
      7 5 true rfl).1⟩

/-! ## Per-miner submission outcomes and the automatic ban (C10) -/

/-- The effect of one `SubmitShare` call on a miner's ban state
(`pool.cpp:913-932`): a rejected share bumps `total_shares_rejected` and
`invalid_share_count` and runs `CheckInvalidShares`; an accepted share goes
through `ProcessValidShare`, which resets `invalid_share_count` to zero. -/
def minerStep (cfg : PoolCfg) (m : MinerCtr) (accepted : Bool) : MinerCtr :=
  if accepted then processValidShareMiner m
  else checkInvalidShares cfg
    { m with totalSharesRejected := m.totalSharesRejected + 1,
             invalidShareCount := m.invalidShareCount + 1 }

/-- A miner's state after a sequence of submission outcomes (`true` =
accepted, `false` = rejected). -/
def minerRun (cfg : PoolCfg) (m : MinerCtr) (l : List Bool) : MinerCtr :=
  l.foldl (minerStep cfg) m

/-- Number of consecutive rejections at the end of an outcome sequence. -/
def trailingRejects (l : List Bool) : Nat :=
  (l.reverse.takeWhile (fun a => !a)).length

/-- The abstraction is faithful: one `SubmitShare` call moves the miner's
`invalid_share_count` and ban flag exactly as `minerStep` does on the
submission outcome (`recordedShare.isSome`); block bookkeeping touches
neither field. -/
theorem submitShare_minerStep (cfg : PoolCfg) (currentWork : Option WorkR)
    (networkDifficulty : Nat) (now : Int) (nextShareId : Nat) (w : WorkerR)
    (m : MinerCtr) (recent : List Share) (jobId nonce : Nat)
    (shareHash : List Nat) (blockAccepted : Bool) :
    (submitShare cfg currentWork networkDifficulty now nextShareId w m recent
        jobId nonce shareHash blockAccepted).miner.invalidShareCount =
      (minerStep cfg m (submitShare cfg currentWork networkDifficulty now
        nextShareId w m recent jobId nonce shareHash
        blockAccepted).recordedShare.isSome).invalidShareCount ∧
    (submitShare cfg currentWork networkDifficulty now nextShareId w m recent
        jobId nonce shareHash blockAccepted).miner.isBanned =
      (minerStep cfg m (submitShare cfg currentWork networkDifficulty now
        nextShareId w m recent jobId nonce shareHash
        blockAccepted).recordedShare.isSome).isBanned := by
  unfold submitShare
  dsimp only
  split
  · exact ⟨rfl, rfl⟩
  · split
    · split <;> exact ⟨rfl, rfl⟩
    · exact ⟨rfl, rfl⟩

theorem minerRun_append (cfg : PoolCfg) (m : MinerCtr) (l : List Bool)
    (a : Bool) : minerRun cfg m (l ++ [a]) = minerStep cfg (minerRun cfg m l) a := by
  simp [minerRun, List.foldl_append]

theorem trailingRejects_append (l : List Bool) :
    trailingRejects (l ++ [false]) = trailingRejects l + 1 ∧
    trailingRejects (l ++ [true]) = 0 := by
  constructor <;> simp [trailingRejects, List.reverse_append]

theorem checkInvalidShares_count (cfg : PoolCfg) (m : MinerCtr) :
    (checkInvalidShares cfg m).invalidShareCount = m.invalidShareCount := by
  unfold checkInvalidShares
  split <;> rfl

theorem minerRun_count (cfg : PoolCfg) (m0 : MinerCtr)
    (h0 : m0.invalidShareCount = 0) (l : List Bool) :
    (minerRun cfg m0 l).invalidShareCount = trailingRejects l := by
  induction l using List.reverseRecOn with
  | nil => simpa [minerRun, trailingRejects] using h0
  | append_singleton l a ih =>
    rw [minerRun_append]
    cases a
    · rw [(trailingRejects_append l).1]
      unfold minerStep
      rw [if_neg (by simp)]
      rw [checkInvalidShares_count]
      simpa using ih
    · rw [(trailingRejects_append l).2]
      rfl

/-- C10: an accepted share resets `invalid_share_count` to zero (the
`ProcessValidShare` reset at `pool.cpp:1020`), and consequently, starting
from a miner with a zero counter and no ban, the automatic ban can fire only
after some prefix of the submission sequence ends in at least
`max_invalid_shares` consecutive rejected shares with no accepted share from
that miner in between. -/
theorem c10_ban_needs_consecutive_rejects (cfg : PoolCfg) (m0 : MinerCtr)
    (l : List Bool) (h0 : m0.invalidShareCount = 0)
    (hb0 : m0.isBanned = false)
    (hbanned : (minerRun cfg m0 l).isBanned = true) :
    (∀ m : MinerCtr, (minerStep cfg m true).invalidShareCount = 0) ∧
    ∃ p, p <+: l ∧ cfg.maxInvalidShares ≤ trailingRejects p := by
  refine ⟨fun m => rfl, ?_⟩
  induction l using List.reverseRecOn with
  | nil =>
    rw [show minerRun cfg m0 [] = m0 from rfl, hb0] at hbanned
    exact absurd hbanned Bool.false_ne_true
  | append_singleton l a ih =>
    rw [minerRun_append] at hbanned
    by_cases hprev : (minerRun cfg m0 l).isBanned = true
    · obtain ⟨p, hpre, hcnt⟩ := ih hprev
      exact ⟨p, hpre.trans (l.prefix_append [a]), hcnt⟩
    · cases a
      · unfold minerStep at hbanned
        rw [if_neg (by simp)] at hbanned
        unfold checkInvalidShares at hbanned
        split at hbanned
        · rename_i hcond
          refine ⟨l ++ [false], List.prefix_refl _, ?_⟩
          rw [(trailingRejects_append l).1, ← minerRun_count cfg m0 h0 l]
          simp only [Bool.and_eq_true, decide_eq_true_eq] at hcond
          omega
        · simp at hbanned
          exact absurd hbanned hprev
      · unfold minerStep at hbanned
        rw [if_pos rfl] at hbanned
        exact absurd hbanned hprev

/-- C10, witness: with `max_invalid_shares = 2`, two consecutive rejections
ban the fresh miner, and the run exhibits the required prefix. -/
theorem c10_witness :
    (minerEx.invalidShareCount = 0 ∧ minerEx.isBanned = false ∧
      (minerRun { cfgEx with maxInvalidShares := 2 } minerEx
        [false, false]).isBanned = true) ∧
    ((∀ m : MinerCtr,
        (minerStep { cfgEx with maxInvalidShares := 2 } m true).invalidShareCount = 0) ∧
      ∃ p, p <+: [false, false] ∧
        ({ cfgEx with maxInvalidShares := 2 } : PoolCfg).maxInvalidShares ≤
          trailingRejects p) :=
  ⟨⟨rfl, rfl, rfl⟩,
   c10_ban_needs_consecutive_rejects { cfgEx with maxInvalidShares := 2 }
     minerEx [false, false] rfl rfl rfl⟩

/-- A miner eligible for a payout: 10000 unpaid, nothing paid, last payout
at time 0. -/
def minerC3 : MinerAcct :=
  { minerId := 1, payoutAddress := "addr1", unpaidBalance := 10000,
    paidBalance := 0, lastPayout := 0 }

/-- The payment that the sweep at time 4000 emits for `minerC3`. -/
def payEx : PaymentR :=
  { paymentId := 1, minerId := 1, payoutAddress := "addr1", amount := 10000,
    createdAt := 4000, isConfirmed := false, status := "pending" }

/-- C3: the `mining_pool_server.cpp` payout sweep credits `paid_balance` at
the moment it creates a payment whose status is still `pending`
(`mining_pool_server.cpp:1089,1096`): after one sweep over an eligible miner
with 10000 unpaid, `paid_balance = 10000` while the sum of that miner's
confirmed payments is 0 — the invariant `paid_balance = Σ confirmed
payments` is broken, and `paid_balance` rises without any payment becoming
confirmed.  (The `pool.cpp` version of the same function never touches
`paid_balance`, so the two implementations also contradict each other.) -/
theorem c3_pending_payment_credits_paid_balance :
    ((processPayoutsMPS cfgEx 4000 [minerC3] 1).1.map MinerAcct.paidBalance
      = [10000]) ∧
    ((processPayoutsMPS cfgEx 4000 [minerC3] 1).2.1.map PaymentR.status
      = ["pending"]) ∧
    confirmedTotal 1 (processPayoutsMPS cfgEx 4000 [minerC3] 1).2.1 = 0 ∧
    (10000 : Nat) ≠ 0 ∧
    ((processPayouts cfgEx 4000 [minerC3] 1).1.map MinerAcct.paidBalance
      = [0]) := by
  exact ⟨rfl, rfl, rfl, by decide, rfl⟩

/-- Every payment the `pool.cpp` sweep emits respects the minimum-payout and
payout-interval guards. -/
theorem processPayouts_payment_sound (cfg : PoolCfg) (now : Int) :
    ∀ (miners : List MinerAcct) (pid : Nat) (p : PaymentR),
      p ∈ (processPayouts cfg now miners pid).2.1 →
      cfg.minPayout ≤ p.amount ∧ p.createdAt = now ∧
      ∃ m ∈ miners, p.minerId = m.minerId ∧
        (cfg.payoutInterval : Int) ≤ now - m.lastPayout := by
  intro miners
  induction miners with
  | nil =>
    intro pid p hp
    simp [processPayouts] at hp
  | cons m rest ih =>
    intro pid p hp
    unfold processPayouts at hp
    by_cases h1 : m.unpaidBalance < cfg.minPayout
    · rw [if_pos h1] at hp
      obtain ⟨hle, hct, m1, hm1, h3, h4⟩ := ih pid p hp
      exact ⟨hle, hct, m1, List.mem_cons_of_mem _ hm1, h3, h4⟩
    · rw [if_neg h1] at hp
      by_cases h2 : now - m.lastPayout < (cfg.payoutInterval : Int)
      · rw [if_pos h2] at hp
        obtain ⟨hle, hct, m1, hm1, h3, h4⟩ := ih pid p hp
        exact ⟨hle, hct, m1, List.mem_cons_of_mem _ hm1, h3, h4⟩
      · rw [if_neg h2] at hp
        rcases List.mem_cons.mp hp with hpe | hpt
        · subst hpe
          exact ⟨by dsimp only; omega, rfl, m, List.mem_cons_self _ _, rfl,
            by omega⟩
        · obtain ⟨hle, hct, m1, hm1, h3, h4⟩ := ih (pid + 1) p hpt
          exact ⟨hle, hct, m1, List.mem_cons_of_mem _ hm1, h3, h4⟩

/-- Every payment the `mining_pool_server.cpp` sweep emits respects the
minimum-payout and payout-interval guards. -/
theorem processPayoutsMPS_payment_sound (cfg : PoolCfg) (now : Int) :
    ∀ (miners : List MinerAcct) (pid : Nat) (p : PaymentR),
      p ∈ (processPayoutsMPS cfg now miners pid).2.1 →
      cfg.minPayout ≤ p.amount ∧ p.createdAt = now ∧
      ∃ m ∈ miners, p.minerId = m.minerId ∧
        (cfg.payoutInterval : Int) ≤ now - m.lastPayout := by
  intro miners
  induction miners with
  | nil =>
    intro pid p hp
    simp [processPayoutsMPS] at hp
  | cons m rest ih =>
    intro pid p hp
    unfold processPayoutsMPS at hp
    by_cases h1 : m.unpaidBalance < cfg.minPayout
    · rw [if_pos h1] at hp
      obtain ⟨hle, hct, m1, hm1, h3, h4⟩ := ih pid p hp
      exact ⟨hle, hct, m1, List.mem_cons_of_mem _ hm1, h3, h4⟩
    · rw [if_neg h1] at hp
      by_cases h2 : now - m.lastPayout < (cfg.payoutInterval : Int)
      · rw [if_pos h2] at hp
        obtain ⟨hle, hct, m1, hm1, h3, h4⟩ := ih pid p hp
        exact ⟨hle, hct, m1, List.mem_cons_of_mem _ hm1, h3, h4⟩
      · rw [if_neg h2] at hp
        rcases List.mem_cons.mp hp with hpe | hpt
        · subst hpe
          exact ⟨by dsimp only; omega, rfl, m, List.mem_cons_self _ _, rfl,
            by omega⟩
        · obtain ⟨hle, hct, m1, hm1, h3, h4⟩ := ih (pid + 1) p hpt
          exact ⟨hle, hct, m1, List.mem_cons_of_mem _ hm1, h3, h4⟩

/-- C5: in both implementations of `ProcessPayouts`, every emitted payment
has `amount ≥ min_payout` and is created at least `payout_interval` seconds
after the paying miner's previous payout (`created_at - last_payout ≥
payout_interval`). -/
theorem c5_payout_thresholds (cfg : PoolCfg) (now : Int)
    (miners : List MinerAcct) (pid qid : Nat) (p q : PaymentR)
    (hp : p ∈ (processPayouts cfg now miners pid).2.1)
    (hq : q ∈ (processPayoutsMPS cfg now miners qid).2.1) :
    (cfg.minPayout ≤ p.amount ∧ p.createdAt = now ∧
      ∃ m ∈ miners, p.minerId = m.minerId ∧
        (cfg.payoutInterval : Int) ≤ now - m.lastPayout) ∧
    (cfg.minPayout ≤ q.amount ∧ q.createdAt = now ∧
      ∃ m ∈ miners, q.minerId = m.minerId ∧
        (cfg.payoutInterval : Int) ≤ now - m.lastPayout) :=
  ⟨processPayouts_payment_sound cfg now miners pid p hp,
   processPayoutsMPS_payment_sound cfg now miners qid q hq⟩

/-- C5, witness at the eligible miner `minerC3` swept at time 4000. -/
theorem c5_witness :
    (payEx ∈ (processPayouts cfgEx 4000 [minerC3] 1).2.1 ∧
     payEx ∈ (processPayoutsMPS cfgEx 4000 [minerC3] 1).2.1) ∧
    ((cfgEx.minPayout ≤ payEx.amount ∧ payEx.createdAt = 4000 ∧
      ∃ m ∈ [minerC3], payEx.minerId = m.minerId ∧
        (cfgEx.payoutInterval : Int) ≤ 4000 - m.lastPayout) ∧
     (cfgEx.minPayout ≤ payEx.amount ∧ payEx.createdAt = 4000 ∧
      ∃ m ∈ [minerC3], payEx.minerId = m.minerId ∧
        (cfgEx.payoutInterval : Int) ≤ 4000 - m.lastPayout)) :=
  ⟨⟨by decide, by decide⟩,
   c5_payout_thresholds cfgEx 4000 [minerC3] 1 1 payEx payEx
     (by decide) (by decide)⟩

end IntcoinPool
